import Mathlib

/-!
Verification of the disaster-recovery daemon (`cfd`).

The repository contains three variants of the same TypeScript program
(`src/index.ts`): a docker-exec + zenity variant, a direct
mongodump/mongorestore + zenity variant, and an Electron + DBus variant.
This file shallowly embeds the parts of those programs that carry the
specification's invariants:

* the backup-record store (a MongoDB collection, modelled as a list of
  records in insertion order) together with `findOne({status:"created"},
  {sort:{createdAt:-1}})`, `insertOne` and `updateOne`;
* `restoreFromLatestBackup` (authoritative record-store resolution of the
  two mongo variants, and the filesystem fallback of the Electron variant);
* `createBackup` of the docker variant and of the archive variants;
* the `yyyyMMdd-HHmmss` timestamp formatting used for archive names;
* `showDialog` (the zenity confirmation gate) and the Electron gate's
  error default;
* `ensureBackupDir`;
* the `alertTriggered` reentrancy guard of `onInactivityDetected`,
  modelled as a small transition system over the await points of the
  handler.
-/

namespace CFD

/-! ## Definitions: the shallow embedding -/

inductive BackupStatus where
  | created
  | failed
  | restored
deriving DecidableEq, Repr

inductive BackupType where
  | emergency
  | scheduled
deriving DecidableEq, Repr

/-- One document of the `backups` collection. `createdAt` is a timestamp in
abstract time units; records live in a list in insertion order, and a
record's position in that list plays the role of its Mongo `_id`. -/
structure BackupRecord where
  path : String
  createdAt : Nat
  type : BackupType
  status : BackupStatus
deriving DecidableEq, Repr

/-- The record store: the `backups` collection in insertion order. -/
abbrev Store := List BackupRecord

/-- Combine the best entry seen so far with a newly scanned `created`
record at index `i`; the new record wins ties of `createdAt` (later
insertion wins). -/
def pickLater (best : Option (Nat × BackupRecord)) (i : Nat) (r : BackupRecord) :
    Option (Nat × BackupRecord) :=
  match best with
  | none => some (i, r)
  | some (j, q) => if q.createdAt ≤ r.createdAt then some (i, r) else some (j, q)

/-- Scan the collection from index `i`, keeping the best `created` entry. -/
def findLatestCreatedAux : Nat → Option (Nat × BackupRecord) → List BackupRecord →
    Option (Nat × BackupRecord)
  | _, best, [] => best
  | i, best, r :: rest =>
      findLatestCreatedAux (i + 1)
        (if r.status = .created then pickLater best i r else best) rest

/-- Embedding of `collection.findOne({status:"created"},{sort:{createdAt:-1}})`
(src/index.ts lines 152-155 and 388-391): the index and contents of the
selected record, or `none` when no `created` record exists. -/
def findLatestCreated (s : Store) : Option (Nat × BackupRecord) :=
  findLatestCreatedAux 0 none s

inductive RestoreError where
  | noBackupAvailable
  | externalToolError
deriving DecidableEq, Repr

/-- Embedding of `restoreFromLatestBackup` (src/index.ts lines 143-209 and
380-418, authoritative record-store policy). `toolOk` is the outcome of the
external `mongorestore` invocation. Returns the selected record's index on
success, and the record store after the call (the status update
`updateOne({_id}, {$set:{status:"restored"}})` runs only after the tool
succeeded; every error path leaves the store unchanged). -/
def restoreFromLatestBackup (toolOk : Bool) (s : Store) :
    Except RestoreError Nat × Store :=
  match findLatestCreated s with
  | none => (.error .noBackupAvailable, s)
  | some (i, r) =>
      if toolOk then
        (.ok i, s.set i { r with status := .restored })
      else
        (.error .externalToolError, s)

/-- Entry `a` is no better a candidate than `b`: strictly older, or equal age and
inserted no later. -/
def entryLe (a b : Nat × BackupRecord) : Prop :=
  a.2.createdAt < b.2.createdAt ∨ (a.2.createdAt = b.2.createdAt ∧ a.1 ≤ b.1)

/-- A store realising the spec's scenario: records at times `1 < 2 < 3`
with the latest one marked `failed`. -/
def demoStore : Store :=
  [ { path := "b1", createdAt := 1, type := .emergency, status := .created },
    { path := "b2", createdAt := 2, type := .emergency, status := .created },
    { path := "b3", createdAt := 3, type := .emergency, status := .failed } ]

/-- The restored demo store (index 1 rewritten to `restored`). -/
def demoStoreRestored : Store :=
  demoStore.set 1 { path := "b2", createdAt := 2, type := .emergency, status := .restored }

/-- Big-endian fixed-width decimal digits of `n` (most significant first).
For `n < 10 ^ w` this is exactly the zero-padded decimal rendering. -/
def digitsBE : Nat → Nat → List Nat
  | 0, _ => []
  | w + 1, n => n / 10 ^ w :: digitsBE w (n % 10 ^ w)

/-- The zero-padded decimal field as ASCII characters. -/
def padChars (w n : Nat) : List Char :=
  (digitsBE w n).map (fun d => Char.ofNat (48 + d))

/-- Decode a big-endian digit list. -/
def decodeBE : List Nat → Nat
  | [] => 0
  | d :: ds => d * 10 ^ ds.length + decodeBE ds

/-- Code-unit lexicographic "less or equal" on character lists; this is
the order JavaScript's default `Array.prototype.sort` sorts strings by. -/
def lexLe : List Char → List Char → Bool
  | [], _ => true
  | _ :: _, [] => false
  | a :: as, b :: bs =>
      if a.toNat < b.toNat then true
      else if b.toNat < a.toNat then false
      else lexLe as bs

/-- Lexicographic order on strings, as the JS comparator. -/
def strLe (s t : String) : Bool := lexLe s.data t.data

/-- A wall-clock reading (`new Date()`); the millisecond part is carried
by the Date value but dropped by the `yyyyMMdd-HHmmss` format. -/
structure DateTime where
  year : Nat
  month : Nat
  day : Nat
  hour : Nat
  minute : Nat
  second : Nat
  millis : Nat
deriving DecidableEq, Repr

/-- Field ranges of a real calendar reading (date-fns renders each field
zero-padded to its pattern width for years below 10000). -/
def ValidTime (t : DateTime) : Prop :=
  t.year < 10000 ∧ 1 ≤ t.month ∧ t.month ≤ 12 ∧ 1 ≤ t.day ∧ t.day ≤ 31 ∧
    t.hour < 24 ∧ t.minute < 60 ∧ t.second < 60

instance (t : DateTime) : Decidable (ValidTime t) := by
  unfold ValidTime
  infer_instance

/-- Characters of `format(date, "yyyyMMdd-HHmmss")` (date-fns). -/
def fmtChars (t : DateTime) : List Char :=
  padChars 4 t.year ++ padChars 2 t.month ++ padChars 2 t.day ++ ['-'] ++
    padChars 2 t.hour ++ padChars 2 t.minute ++ padChars 2 t.second

/-- The formatted timestamp string. -/
def fmtTimestamp (t : DateTime) : String := String.mk (fmtChars t)

/-- The archive base name `` `backup-${timestamp}` `` (src/index.ts lines 93-94, 341-345, 775-776). -/
def backupName (t : DateTime) : String := "backup-" ++ fmtTimestamp t

/-- The name `` `${backupBasePath}.gz` `` — the file name of the mongodump-archive
variants (src/index.ts lines 346, 777). -/
def backupFileName (t : DateTime) : String := backupName t ++ ".gz"

/-- Path join `join(dir, name)` on an absolute directory. -/
def joinPath (dir name : String) : String := dir ++ "/" ++ name

/-- The reading at one-second granularity, encoded positionally: two valid
readings compare chronologically (ignoring milliseconds) exactly as their
encodings compare. -/
def encodeSec (t : DateTime) : Nat :=
  ((((t.year * 100 + t.month) * 100 + t.day) * 100 + t.hour) * 100 + t.minute) * 100
    + t.second

inductive ToolError where
  | externalToolError
deriving DecidableEq, Repr

/-- Embedding of `createBackup` of the mongodump-archive variants
(src/index.ts lines 340-377 and 774-805): run
`mongodump --archive=<file> --gzip` (outcome `dumpOk`); only on success
insert a `BackupRecord` with `status: "created"`; on failure rethrow with
no store write. `t` is the clock reading naming the archive, `tRec` the
`new Date()` taken at insert time. -/
def createBackup (dumpOk : Bool) (dir : String) (t : DateTime) (tRec : Nat)
    (s : Store) : Except ToolError Unit × Store :=
  let backupFile := joinPath dir (backupName t) ++ ".gz"
  if dumpOk then
    (.ok (), s ++ [{ path := backupFile, createdAt := tRec, type := .emergency, status := .created }])
  else
    (.error .externalToolError, s)

/-- Embedding of `createBackup` of the docker variant (src/index.ts lines
92-141): dump inside the container, `docker cp` to the host, clean the
container — each a separate `execSync` whose failure throws before the
record insert — then insert the record. -/
def createBackupDocker (dumpOk cpOk rmOk : Bool) (dir : String) (t : DateTime)
    (tRec : Nat) (s : Store) : Except ToolError Unit × Store :=
  let hostBackupPath := joinPath dir (backupName t)
  if dumpOk then
    if cpOk then
      if rmOk then
        (.ok (), s ++ [{ path := hostBackupPath, createdAt := tRec, type := .emergency, status := .created }])
      else
        (.error .externalToolError, s)
    else
      (.error .externalToolError, s)
  else
    (.error .externalToolError, s)

/-- The filter predicate `file.endsWith(".gz")`. -/
def endsGz (f : String) : Bool := ".gz".data.isSuffixOf f.data

/-- Embedding of `readdirSync(dir).filter(f => f.endsWith(".gz")).sort().reverse()[0]`:
keep the `.gz` entries of the backup directory, sort lexically (the JS
default comparator), reverse, and take the first entry if any. -/
def selectLatestGz (files : List String) : Option String :=
  ((files.filter endsGz).mergeSort strLe).reverse.head?

/-- Embedding of `updateOne({ path: backupPath }, { $set: { status:
"restored" } }, { upsert: true })` (src/index.ts lines 836-840): Mongo
updates the first document matching the filter in natural order; with
`upsert: true` and no match it inserts a document built from the filter and
the `$set` — such a document carries only `path` and `status`, so the
fields the code never sets are modelled as defaults. -/
def updateStatusByPathUpsert (p : String) (st : BackupStatus) : Store → Store
  | [] => [{ path := p, createdAt := 0, type := .emergency, status := st }]
  | r :: rest =>
      if r.path = p then { r with status := st } :: rest
      else r :: updateStatusByPathUpsert p st rest

/-- Embedding of the Electron variant's `restoreFromLatestBackup`
(src/index.ts lines 810-848, filesystem-fallback resolution): resolve the
latest archive from the directory listing, not from the record store; with
no `.gz` entry throw the no-backups error; otherwise run `mongorestore` on
`join(dir, latest)` (outcome `toolOk`; its failure rethrows before any
store write) and then upsert that path's record to `restored`. -/
def restoreFromLatestBackupFs (toolOk : Bool) (dir : String)
    (dirFiles : List String) (s : Store) : Except RestoreError String × Store :=
  match selectLatestGz dirFiles with
  | none => (.error .noBackupAvailable, s)
  | some latestBackup =>
      let backupPath := joinPath dir latestBackup
      if toolOk then
        (.ok backupPath, updateStatusByPathUpsert backupPath .restored s)
      else
        (.error .externalToolError, s)

/-- A store with zero `created` records. -/
def demoFailedStore : Store :=
  [ { path := "b1", createdAt := 1, type := .emergency, status := .failed },
    { path := "b2", createdAt := 2, type := .emergency, status := .restored } ]

/-- A concrete clock reading used by several evaluations below. -/
def demoTime : DateTime :=
  { year := 2025, month := 3, day := 14, hour := 10, minute := 30, second := 45, millis := 0 }

/-- A clock reading inside the same second as `demoTime` (only the
millisecond part differs). -/
def demoTimeLater : DateTime :=
  { year := 2025, month := 3, day := 14, hour := 10, minute := 30, second := 45, millis := 500 }

/-- The store produced by two `createBackup` invocations within the same
wall-clock second. -/
def dupStore : Store :=
  (createBackup true "/home/user/backups/tocgamedb" demoTimeLater 101
    (createBackup true "/home/user/backups/tocgamedb" demoTime 100 []).2).2

/-- A reading one second after `demoTime`. -/
def demoTimeNextSec : DateTime :=
  { year := 2025, month := 3, day := 14, hour := 10, minute := 30, second := 46, millis := 0 }

/-- Possible outcomes of the zenity confirmation channel. -/
inductive DialogOutcome where
  | yesProblem
  | noProblem
  | dismissed
  | timeout
  | channelError
deriving DecidableEq, Repr

/-- The `zenity --question` exit codes: 0 when the user answers Yes; 1 when
the user answers No, presses Escape, or closes the window; 5 on timeout;
127 (or another non-zero code) when the command itself fails. -/
def zenityExitCode : DialogOutcome → Nat
  | .yesProblem => 0
  | .noProblem => 1
  | .dismissed => 1
  | .timeout => 5
  | .channelError => 127

/-- Embedding of `showDialog` (src/index.ts lines 77-90 and 324-337):
`execSync` throws exactly when the exit code is non-zero, the `try` branch
returns `true`, the `catch` branch returns `false`. -/
def showDialog (o : DialogOutcome) : Bool := zenityExitCode o == 0

/-- The Electron variant's `showDialog` catch branch (src/index.ts lines
764-768): an unexpected error of the confirmation channel resolves to
`hasProblem = true`. -/
def showDialogElectronOnError : Bool := true

/-- Host filesystem state of the backup root directory. -/
structure DirState where
  dirExists : Bool
  mode : Nat
deriving DecidableEq, Repr

/-- Embedding of `ensureBackupDir` of the archive variants (src/index.ts lines 297-304
and 668-673): `mkdirSync(..., { recursive: true, mode: 0o700 })` only when
the directory does not exist. -/
def ensureBackupDir (fs : DirState) : DirState :=
  if fs.dirExists then fs else { dirExists := true, mode := 0o700 }

/-- Embedding of `ensureBackupDir` of the docker variant (src/index.ts lines 49-53):
same guard, but `mode: 0o755`. -/
def ensureBackupDirDocker (fs : DirState) : DirState :=
  if fs.dirExists then fs else { dirExists := true, mode := 0o755 }

/-- All group and other permission bits are clear. -/
def ownerOnly (mode : Nat) : Bool := mode % 64 == 0

inductive Phase where
  | idle
  | confirming
  | acting
deriving DecidableEq, Repr

/-- Process-local orchestrator state around `onInactivityDetected`
(src/index.ts lines 708-721): the `alertTriggered` flag, the position of
the in-flight handler between its await points, and audit counters. -/
structure OrchState where
  alertTriggered : Bool
  phase : Phase
  inFlight : Nat
  triggers : Nat
  cycleStarts : Nat
  engineStarts : Nat
  drops : Nat
deriving DecidableEq, Repr

/-- The events delivered at the handler's interleaving points: a trigger
(`ActiveChanged(true)` from the screensaver), the confirmation dialog
resolving, the backup/restore engine returning, or the engine throwing. -/
inductive OrchEvent where
  | trigger
  | confirmDone (hasProblem : Bool)
  | engineOk
  | engineThrow
deriving DecidableEq, Repr

def initState : OrchState := ⟨false, .idle, 0, 0, 0, 0, 0⟩

/-- One step of `onInactivityDetected`: a trigger is dropped when
`alertTriggered` is set, otherwise the flag is set and the dialog opens;
when the dialog resolves the engine is invoked; when the engine returns the
flag is cleared; when the engine throws the exception propagates out of the
handler before the `alertTriggered = false` line runs, so the flag stays
set. -/
def step (s : OrchState) : OrchEvent → OrchState
  | .trigger =>
      if s.alertTriggered then
        { s with triggers := s.triggers + 1, drops := s.drops + 1 }
      else
        { s with alertTriggered := true, phase := .confirming, inFlight := s.inFlight + 1, triggers := s.triggers + 1, cycleStarts := s.cycleStarts + 1 }
  | .confirmDone _ =>
      if s.phase = .confirming then
        { s with phase := .acting, engineStarts := s.engineStarts + 1 }
      else s
  | .engineOk =>
      if s.phase = .acting then
        { s with phase := .idle, alertTriggered := false, inFlight := s.inFlight - 1 }
      else s
  | .engineThrow =>
      if s.phase = .acting then
        { s with phase := .idle, inFlight := s.inFlight - 1 }
      else s

/-- The state after a sequence of events from process start. -/
def run (evs : List OrchEvent) : OrchState := evs.foldl step initState

/-- The single-flight invariant: an idle handler has no cycle in flight, a
non-idle handler has exactly one and holds the guard, and every trigger
either started a cycle or was dropped. -/
def Inv (s : OrchState) : Prop :=
  (s.phase = .idle → s.inFlight = 0) ∧
  (s.phase ≠ .idle → s.inFlight = 1 ∧ s.alertTriggered = true) ∧
  s.triggers = s.cycleStarts + s.drops

/-! ## Lemmas and claim theorems -/

lemma entryLe_trans {a b c : Nat × BackupRecord} (h1 : entryLe a b) (h2 : entryLe b c) :
    entryLe a c := by
  rcases h1 with h1 | ⟨h1, h1'⟩ <;> rcases h2 with h2 | ⟨h2, h2'⟩ <;>
    simp only [entryLe] <;> omega

lemma entryLe_refl (a : Nat × BackupRecord) : entryLe a a := by
  simp [entryLe]

/-- Function `pickLater` either promotes the new head entry (when it is at least as
recent as the incumbent) or keeps the incumbent (when the incumbent is
strictly more recent). -/
lemma pickLater_cases (best : Option (Nat × BackupRecord)) (i : Nat) (r : BackupRecord) :
    (pickLater best i r = some (i, r) ∧
      ∀ j₀ q₀, best = some (j₀, q₀) → q₀.createdAt ≤ r.createdAt) ∨
    (∃ j₀ q₀, best = some (j₀, q₀) ∧ pickLater best i r = some (j₀, q₀) ∧
      r.createdAt < q₀.createdAt) := by
  cases best with
  | none =>
      left
      constructor
      · rfl
      · intro j₀ q₀ h
        cases h
  | some jq =>
      obtain ⟨j₀, q₀⟩ := jq
      by_cases hle : q₀.createdAt ≤ r.createdAt
      · left
        constructor
        · simp [pickLater, hle]
        · intro j₁ q₁ h
          injection h with h
          cases h
          exact hle
      · right
        refine ⟨j₀, q₀, rfl, ?_, by omega⟩
        simp [pickLater, hle]

/-- The empty-result case: nothing was selected only because no record at
all (neither the accumulator nor the list) has status `created`. -/
lemma findLatestCreatedAux_eq_none (l : List BackupRecord) :
    ∀ (i : Nat) (best : Option (Nat × BackupRecord)),
    findLatestCreatedAux i best l = none →
    best = none ∧ ∀ r ∈ l, r.status ≠ .created := by
  induction l with
  | nil =>
      intro i best h
      exact ⟨h, by intro r hr; simp at hr⟩
  | cons r rest ih =>
      intro i best h
      simp only [findLatestCreatedAux] at h
      by_cases hr : r.status = .created
      · rw [if_pos hr] at h
        have := (ih (i + 1) (pickLater best i r) h).1
        rcases pickLater_cases best i r with ⟨hp, -⟩ | ⟨j₀, q₀, -, hp, -⟩ <;>
          rw [hp] at this <;> cases this
      · rw [if_neg hr] at h
        obtain ⟨hb, hrest⟩ := ih (i + 1) best h
        refine ⟨hb, ?_⟩
        intro x hx
        rcases List.mem_cons.mp hx with hx | hx
        · subst hx; exact hr
        · exact hrest x hx

/-- The successful-selection case: the result is a `created` record of the
store (or of the accumulator) and dominates, in the `entryLe` order, the
accumulator and every `created` record of the list. -/
lemma findLatestCreatedAux_eq_some (l : List BackupRecord) :
    ∀ (i : Nat) (best : Option (Nat × BackupRecord)) (j : Nat) (q : BackupRecord),
    (∀ j' q', best = some (j', q') → q'.status = .created ∧ j' < i) →
    findLatestCreatedAux i best l = some (j, q) →
    q.status = .created ∧
    (best = some (j, q) ∨ ∃ k, l[k]? = some q ∧ j = i + k) ∧
    (∀ j' q', best = some (j', q') → entryLe (j', q') (j, q)) ∧
    (∀ k r, l[k]? = some r → r.status = .created → entryLe (i + k, r) (j, q)) := by
  induction l with
  | nil =>
      intro i best j q hbest h
      simp only [findLatestCreatedAux] at h
      subst h
      refine ⟨(hbest j q rfl).1, Or.inl rfl, ?_, ?_⟩
      · intro j' q' h'
        injection h' with h'
        injection h' with h1 h2
        subst h1; subst h2
        exact entryLe_refl _
      · intro k x hk
        simp at hk
  | cons r rest ih =>
      intro i best j q hbest h
      simp only [findLatestCreatedAux] at h
      by_cases hr : r.status = .created
      · rw [if_pos hr] at h
        have hbest' : ∀ j' q', pickLater best i r = some (j', q') →
            q'.status = .created ∧ j' < i + 1 := by
          intro j' q' h'
          rcases pickLater_cases best i r with ⟨hp, -⟩ | ⟨j₀, q₀, hb, hp, -⟩ <;>
            rw [hp] at h' <;> injection h' with h' <;> injection h' with h1 h2 <;>
            subst h1 <;> subst h2
          · exact ⟨hr, Nat.lt_succ_self i⟩
          · exact ⟨(hbest _ _ hb).1, Nat.lt_succ_of_lt (hbest _ _ hb).2⟩
        obtain ⟨hqc, horig, hub_pick, hub_rest⟩ := ih (i + 1) (pickLater best i r) j q hbest' h
        -- every entry of `best`, and the head entry `(i, r)`, are dominated
        -- by whatever `pickLater` kept, hence by the final result.
        have hdom_head : entryLe (i, r) (j, q) := by
          rcases pickLater_cases best i r with ⟨hp, -⟩ | ⟨j₀, q₀, hb, hp, hlt⟩
          · exact hub_pick i r hp
          · exact entryLe_trans (Or.inl hlt) (hub_pick j₀ q₀ hp)
        have hdom_best : ∀ j' q', best = some (j', q') → entryLe (j', q') (j, q) := by
          intro j' q' hb'
          rcases pickLater_cases best i r with ⟨hp, hle⟩ | ⟨j₀, q₀, hb, hp, hlt⟩
          · have h1 : entryLe (j', q') (i, r) := by
              have h2 := hle j' q' hb'
              have h3 := (hbest j' q' hb').2
              simp only [entryLe]
              omega
            exact entryLe_trans h1 (hub_pick i r hp)
          · rw [hb'] at hb
            injection hb with hb
            injection hb with h1 h2
            subst h1; subst h2
            exact hub_pick j' q' hp
        refine ⟨hqc, ?_, hdom_best, ?_⟩
        · rcases horig with hp' | ⟨k, hk, hjk⟩
          · rcases pickLater_cases best i r with ⟨hp, -⟩ | ⟨j₀, q₀, hb, hp, -⟩ <;>
              rw [hp] at hp' <;> injection hp' with hp' <;>
              injection hp' with h1 h2 <;> subst h1 <;> subst h2
            · exact Or.inr ⟨0, by simp, by omega⟩
            · exact Or.inl hb
          · exact Or.inr ⟨k + 1, by simpa using hk, by omega⟩
        · intro k x hk hx
          cases k with
          | zero =>
              simp only [List.getElem?_cons_zero, Option.some.injEq] at hk
              subst hk
              simpa using hdom_head
          | succ k' =>
              simp only [List.getElem?_cons_succ] at hk
              have := hub_rest k' x hk hx
              have heq : i + (k' + 1) = i + 1 + k' := by omega
              rw [heq]
              exact this
      · rw [if_neg hr] at h
        obtain ⟨hqc, horig, hub_best, hub_rest⟩ := ih (i + 1) best j q
          (fun j' q' h' => ⟨(hbest j' q' h').1, Nat.lt_succ_of_lt (hbest j' q' h').2⟩) h
        refine ⟨hqc, ?_, hub_best, ?_⟩
        · rcases horig with hb | ⟨k, hk, hjk⟩
          · exact Or.inl hb
          · exact Or.inr ⟨k + 1, by simpa using hk, by omega⟩
        · intro k x hk hx
          cases k with
          | zero =>
              simp only [List.getElem?_cons_zero, Option.some.injEq] at hk
              subst hk
              exact absurd hx hr
          | succ k' =>
              simp only [List.getElem?_cons_succ] at hk
              have := hub_rest k' x hk hx
              have heq : i + (k' + 1) = i + 1 + k' := by omega
              rw [heq]
              exact this

/-- Top-level characterisation of a successful selection. -/
lemma findLatestCreated_eq_some {s : Store} {i : Nat} {r : BackupRecord}
    (h : findLatestCreated s = some (i, r)) :
    r.status = .created ∧ s[i]? = some r ∧
    ∀ j q, s[j]? = some q → q.status = .created → entryLe (j, q) (i, r) := by
  obtain ⟨hrc, horig, -, hub⟩ :=
    findLatestCreatedAux_eq_some s 0 none i r (by intro j' q' h'; cases h') h
  refine ⟨hrc, ?_, ?_⟩
  · rcases horig with hb | ⟨k, hk, hik⟩
    · cases hb
    · simpa [hik] using hk
  · intro j q hj hq
    simpa using hub j q hj hq

/-- If no record has status `created`, the selection comes back empty. -/
lemma findLatestCreated_eq_none (s : Store) (h : ∀ r ∈ s, r.status ≠ .created) :
    findLatestCreated s = none := by
  cases hres : findLatestCreated s with
  | none => rfl
  | some jq =>
      obtain ⟨i, r⟩ := jq
      obtain ⟨hrc, hget, -⟩ := findLatestCreated_eq_some hres
      obtain ⟨hlt, hr⟩ := List.getElem?_eq_some_iff.mp hget
      exact absurd hrc (h _ (hr ▸ List.getElem_mem hlt))

/-- C1: under the authoritative record-store policy, `restoreFromLatestBackup`
selects exactly the record with the maximum `createdAt` among records with
status `created` (ties broken toward the later-inserted record); `failed`
and `restored` records are never selected; and with no `created` record the
call fails with `NoBackupAvailable`. -/
theorem restoreLatest_selects_max_created (s : Store) :
    ((∀ r ∈ s, r.status ≠ .created) →
        ∀ ok, restoreFromLatestBackup ok s = (.error .noBackupAvailable, s)) ∧
    (∀ i r, findLatestCreated s = some (i, r) →
        r.status = .created ∧ s[i]? = some r ∧
        restoreFromLatestBackup true s = (.ok i, s.set i { r with status := .restored }) ∧
        ∀ j q, s[j]? = some q → q.status = .created →
          q.createdAt < r.createdAt ∨ (q.createdAt = r.createdAt ∧ j ≤ i)) := by
  constructor
  · intro h ok
    simp [restoreFromLatestBackup, findLatestCreated_eq_none s h]
  · intro i r hfind
    obtain ⟨hrc, hget, hub⟩ := findLatestCreated_eq_some hfind
    refine ⟨hrc, hget, ?_, ?_⟩
    · simp [restoreFromLatestBackup, hfind]
    · intro j q hj hq
      simpa [entryLe] using hub j q hj hq

/-- C1 witness: on `demoStore` the selection takes the `createdAt = 2`
record (index 1), not the more recent `failed` one. -/
theorem restoreLatest_selects_max_created_witness :
    restoreFromLatestBackup true demoStore =
      (.ok 1, demoStore.set 1
        { path := "b2", createdAt := 2, type := .emergency, status := .restored }) :=
  ((restoreLatest_selects_max_created demoStore).2 1
    { path := "b2", createdAt := 2, type := .emergency, status := .created }
    (by decide)).2.2.1

/-- C4: a successful restore rewrites the selected record's status to
`restored`, and an immediately following selection never picks the same
record again. -/
theorem restore_marks_selected_restored (s : Store) (i : Nat) (res : Store)
    (h : restoreFromLatestBackup true s = (.ok i, res)) :
    (∃ r, s[i]? = some r ∧ res[i]? = some { r with status := .restored }) ∧
    (∀ j q, findLatestCreated res = some (j, q) → j ≠ i) := by
  revert h
  unfold restoreFromLatestBackup
  cases hfind : findLatestCreated s with
  | none =>
      intro h
      simp at h
  | some jq =>
      obtain ⟨i₀, r₀⟩ := jq
      obtain ⟨hrc, hget, -⟩ := findLatestCreated_eq_some hfind
      intro h
      simp only [if_pos rfl, Prod.mk.injEq, Except.ok.injEq, if_true] at h
      obtain ⟨hi, hres⟩ := h
      subst hres
      rw [← hi]
      have hlen : i₀ < s.length := (List.getElem?_eq_some_iff.mp hget).1
      have hresget : (s.set i₀ { r₀ with status := .restored })[i₀]? =
          some { r₀ with status := .restored } := List.getElem?_set_self hlen
      refine ⟨⟨r₀, hget, hresget⟩, ?_⟩
      intro j q hjq hj
      subst hj
      obtain ⟨hqc, hqget, -⟩ := findLatestCreated_eq_some hjq
      rw [hresget] at hqget
      injection hqget with hqget
      rw [← hqget] at hqc
      simp at hqc

/-- C4 witness: restoring `demoStore` marks index 1 `restored`, and the
following selection (which computes to index 0) does not pick index 1. -/
theorem restore_marks_selected_restored_witness :
    demoStoreRestored[1]? =
      some { path := "b2", createdAt := 2, type := .emergency, status := .restored } ∧
    (0 : Nat) ≠ 1 := by
  obtain ⟨⟨r, hr1, hr2⟩, hns⟩ :=
    restore_marks_selected_restored demoStore 1 demoStoreRestored (by rfl)
  have hr : r = { path := "b2", createdAt := 2, type := .emergency, status := .created } := by
    rw [show demoStore[1]? =
      some { path := "b2", createdAt := 2, type := .emergency, status := .created }
      from rfl] at hr1
    injection hr1 with hr1
    exact hr1.symm
  refine ⟨?_, hns 0 { path := "b1", createdAt := 1, type := .emergency, status := .created } (by rfl)⟩
  rw [hr] at hr2
  exact hr2

/-- C5 counterexample: `demoFailedStore` holds zero `created` records
(`findLatestCreated` comes back empty), yet the Electron
filesystem-fallback `restoreFromLatestBackup` — a variant the claim cites —
with one `.gz` archive on disk succeeds instead of failing with
`NoBackupAvailable`, and its `upsert: true` bookkeeping even writes a new
record into the store. -/
theorem restoreFs_no_created_succeeds_and_writes :
    findLatestCreated demoFailedStore = none ∧
    restoreFromLatestBackupFs true "/home/user/backups/tocgamedb"
        ["backup-20250314-103045.gz"] demoFailedStore =
      (.ok "/home/user/backups/tocgamedb/backup-20250314-103045.gz",
        demoFailedStore ++ [{ path := "/home/user/backups/tocgamedb/backup-20250314-103045.gz", createdAt := 0, type := .emergency, status := .restored }]) := by
  constructor
  · rfl
  · have hsel : selectLatestGz ["backup-20250314-103045.gz"] =
        some "backup-20250314-103045.gz" := by
      unfold selectLatestGz
      rw [show (["backup-20250314-103045.gz"] : List String).filter endsGz =
        ["backup-20250314-103045.gz"] from rfl, List.mergeSort_singleton]
      rfl
    unfold restoreFromLatestBackupFs
    rw [hsel]
    rfl

/-- C5 (amended): which resolution policy runs decides the failure mode.
Under the authoritative record-store policy, a store with zero `created`
records makes the restore fail with `NoBackupAvailable` and leaves the
store unchanged. Under the filesystem-fallback policy the record store does
not govern the outcome: the call fails with `NoBackupAvailable` — writing
nothing — exactly when the backup directory holds no `.gz` entry, and with
a `.gz` entry present it never reports `NoBackupAvailable` even though no
`created` record exists. -/
theorem restore_without_created_policy_dependent (s : Store)
    (h : ∀ r ∈ s, r.status ≠ .created) :
    (∀ ok, restoreFromLatestBackup ok s = (.error .noBackupAvailable, s)) ∧
    (∀ ok dir files, (∀ f ∈ files, endsGz f = false) →
      restoreFromLatestBackupFs ok dir files s = (.error .noBackupAvailable, s)) ∧
    (∀ ok dir files f, f ∈ files → endsGz f = true →
      (restoreFromLatestBackupFs ok dir files s).1 ≠ .error .noBackupAvailable) := by
  refine ⟨?_, ?_, ?_⟩
  · intro ok
    simp [restoreFromLatestBackup, findLatestCreated_eq_none s h]
  · intro ok dir files hf
    have hfil : files.filter endsGz = [] := by
      rw [List.filter_eq_nil_iff]
      intro a ha
      simp [hf a ha]
    have hsel : selectLatestGz files = none := by
      unfold selectLatestGz
      rw [hfil, List.mergeSort_nil]
      rfl
    unfold restoreFromLatestBackupFs
    rw [hsel]
  · intro ok dir files f hfmem hfgz
    have hmem : f ∈ files.filter endsGz := List.mem_filter.mpr ⟨hfmem, hfgz⟩
    have hne : (files.filter endsGz).mergeSort strLe ≠ [] := by
      intro h0
      have hperm := List.mergeSort_perm (files.filter endsGz) strLe
      rw [h0] at hperm
      exact absurd (hperm.symm.mem_iff.mp hmem) (List.not_mem_nil f)
    cases hgl : ((files.filter endsGz).mergeSort strLe).getLast? with
    | none => exact absurd (List.getLast?_eq_none_iff.mp hgl) hne
    | some x =>
        have hsel : selectLatestGz files = some x := by
          unfold selectLatestGz
          rw [List.head?_reverse]
          exact hgl
        unfold restoreFromLatestBackupFs
        rw [hsel]
        cases ok with
        | false => simp
        | true => simp

/-- C5 witness: the amended behaviour at concrete inputs — the
authoritative restore on `demoFailedStore` fails with `NoBackupAvailable`
leaving the store unchanged, and so does the fallback over a directory
with no `.gz` entry. -/
theorem restore_without_created_policy_dependent_witness :
    restoreFromLatestBackup true demoFailedStore =
      (.error .noBackupAvailable, demoFailedStore) ∧
    restoreFromLatestBackupFs true "/home/user/backups/tocgamedb" ["notes.txt"]
        demoFailedStore = (.error .noBackupAvailable, demoFailedStore) :=
  ⟨(restore_without_created_policy_dependent demoFailedStore (by decide)).1 true,
    (restore_without_created_policy_dependent demoFailedStore (by decide)).2.1 true
      "/home/user/backups/tocgamedb" ["notes.txt"] (by decide)⟩

lemma length_digitsBE (w n : Nat) : (digitsBE w n).length = w := by
  induction w generalizing n with
  | zero => rfl
  | succ w ih => simp [digitsBE, ih]

lemma length_padChars (w n : Nat) : (padChars w n).length = w := by
  simp [padChars, length_digitsBE]

lemma digitsBE_head_lt (w n : Nat) (h : n < 10 ^ (w + 1)) : n / 10 ^ w < 10 := by
  have h10 : 0 < 10 ^ w := Nat.pos_pow_of_pos w (by omega)
  have : n < 10 * 10 ^ w := by
    have := Nat.pow_succ 10 w
    omega
  exact Nat.div_lt_of_lt_mul (by omega)

lemma toNat_digitChar (d : Nat) (h : d < 10) :
    (Char.ofNat (48 + d)).toNat = 48 + d := by
  interval_cases d <;> decide

lemma decodeBE_digitsBE (w n : Nat) (h : n < 10 ^ w) :
    decodeBE (digitsBE w n) = n := by
  induction w generalizing n with
  | zero =>
      simp only [pow_zero] at h
      interval_cases n
      rfl
  | succ w ih =>
      have h10 : 0 < 10 ^ w := Nat.pos_pow_of_pos w (by omega)
      have hmod : n % 10 ^ w < 10 ^ w := Nat.mod_lt _ h10
      simp only [decodeBE, digitsBE, length_digitsBE, ih _ hmod]
      rw [Nat.mul_comm]
      exact Nat.div_add_mod n (10 ^ w)

/-- A strictly smaller high digit decides the positional comparison. -/
lemma high_digit_lt {P a b c d : Nat} (hb : b < P) (hac : a < c) :
    a * P + b < c * P + d := by
  have h2 : (a + 1) * P ≤ c * P := Nat.mul_le_mul_right P hac
  have h3 : (a + 1) * P = a * P + P := by ring
  rw [h3] at h2
  omega

/-- Positional comparison: with both low parts below the radix `P`, the
high part decides, and ties fall to the low part. -/
lemma block_lt_iff {P a b c d : Nat} (hb : b < P) (hd : d < P) :
    a * P + b < c * P + d ↔ a < c ∨ (a = c ∧ b < d) := by
  constructor
  · intro h
    rcases Nat.lt_trichotomy a c with hac | hac | hac
    · exact Or.inl hac
    · exact Or.inr ⟨hac, by subst hac; omega⟩
    · exfalso
      have h1 : c * P + d < a * P + b := high_digit_lt hd hac
      omega
  · rintro (hac | ⟨hac, hbd⟩)
    · exact high_digit_lt hb hac
    · subst hac; omega

lemma block_le_iff {P a b c d : Nat} (hb : b < P) (hd : d < P) :
    a * P + b ≤ c * P + d ↔ a < c ∨ (a = c ∧ b ≤ d) := by
  rcases Nat.lt_trichotomy a c with hac | hac | hac
  · constructor
    · intro h; exact Or.inl hac
    · intro h
      have h1 : a * P + b < c * P + d :=
        (block_lt_iff (a := a) (b := b) (c := c) (d := d) hb hd).mpr (Or.inl hac)
      omega
  · subst hac
    constructor
    · intro h; exact Or.inr ⟨rfl, by omega⟩
    · rintro (h | ⟨-, h⟩) <;> omega
  · constructor
    · intro h
      have h1 : c * P + d < a * P + b :=
        (block_lt_iff (a := c) (b := d) (c := a) (d := b) hd hb).mpr (Or.inl hac)
      omega
    · rintro (h | ⟨h, -⟩) <;> omega

lemma block_eq_iff {P a b c d : Nat} (hb : b < P) (hd : d < P) :
    a * P + b = c * P + d ↔ a = c ∧ b = d := by
  constructor
  · intro h
    have h1 := (block_le_iff (a := a) (b := b) (c := c) (d := d) hb hd).mp (by omega)
    have h2 := (block_le_iff (a := c) (b := d) (c := a) (d := b) hd hb).mp (by omega)
    constructor <;> omega
  · rintro ⟨rfl, rfl⟩; rfl

lemma lexLe_refl (l : List Char) : lexLe l l = true := by
  induction l with
  | nil => rfl
  | cons a as ih => simp [lexLe, ih]

lemma lexLe_total (a b : List Char) : lexLe a b = true ∨ lexLe b a = true := by
  induction a generalizing b with
  | nil => exact Or.inl rfl
  | cons x xs ih =>
      cases b with
      | nil => exact Or.inr rfl
      | cons y ys =>
          by_cases h1 : x.toNat < y.toNat
          · left; simp [lexLe, h1]
          · by_cases h2 : y.toNat < x.toNat
            · right; simp [lexLe, h1, h2]
            · rcases ih ys with h | h
              · left; simp [lexLe, h1, h2, h]
              · right; simp [lexLe, h1, h2, h]

lemma lexLe_trans {a b c : List Char} (h1 : lexLe a b = true) (h2 : lexLe b c = true) :
    lexLe a c = true := by
  induction a generalizing b c with
  | nil => rfl
  | cons x xs ih =>
      cases b with
      | nil => simp [lexLe] at h1
      | cons y ys =>
          cases c with
          | nil => simp [lexLe] at h2
          | cons z zs =>
              simp only [lexLe] at h1 h2 ⊢
              rcases Nat.lt_trichotomy x.toNat y.toNat with hxy | hxy | hxy
              · rcases Nat.lt_trichotomy y.toNat z.toNat with hyz | hyz | hyz
                · rw [if_pos (by omega)]
                · rw [if_pos (by omega)]
                · rw [if_neg (by omega), if_pos (by omega)] at h2
                  exact absurd h2 (by simp)
              · rcases Nat.lt_trichotomy y.toNat z.toNat with hyz | hyz | hyz
                · rw [if_pos (by omega)]
                · rw [if_neg (by omega), if_neg (by omega)] at h1 h2 ⊢
                  exact ih h1 h2
                · rw [if_neg (by omega), if_pos (by omega)] at h2
                  exact absurd h2 (by simp)
              · rw [if_neg (by omega), if_pos (by omega)] at h1
                exact absurd h1 (by simp)

/-- A shared leading segment does not affect the comparison. -/
lemma lexLe_append_same (p a b : List Char) :
    lexLe (p ++ a) (p ++ b) = lexLe a b := by
  induction p with
  | nil => rfl
  | cons x xs ih => simp [lexLe, ih]

lemma padChars_succ (w n : Nat) :
    padChars (w + 1) n = Char.ofNat (48 + n / 10 ^ w) :: padChars w (n % 10 ^ w) := rfl

lemma lexLe_cons (a b : Char) (as bs : List Char) :
    lexLe (a :: as) (b :: bs) =
      if a.toNat < b.toNat then true
      else if b.toNat < a.toNat then false
      else lexLe as bs := rfl

/-- Comparing two strings that both start with a fixed-width decimal field:
the field values decide, and ties fall to the remainders. -/
lemma lexLe_padChars_append {w n m : Nat} (r1 r2 : List Char)
    (hn : n < 10 ^ w) (hm : m < 10 ^ w) :
    lexLe (padChars w n ++ r1) (padChars w m ++ r2) = true ↔
      n < m ∨ (n = m ∧ lexLe r1 r2 = true) := by
  induction w generalizing n m with
  | zero =>
      simp only [pow_zero] at hn hm
      interval_cases n
      interval_cases m
      show lexLe r1 r2 = true ↔ 0 < 0 ∨ (0 = 0 ∧ lexLe r1 r2 = true)
      constructor
      · intro h
        exact Or.inr ⟨rfl, h⟩
      · rintro (h | ⟨-, h⟩)
        · omega
        · exact h
  | succ w ih =>
      have h10 : 0 < 10 ^ w := Nat.pos_pow_of_pos w (by omega)
      have hdn : n / 10 ^ w < 10 := digitsBE_head_lt w n hn
      have hdm : m / 10 ^ w < 10 := digitsBE_head_lt w m hm
      have hmodn : n % 10 ^ w < 10 ^ w := Nat.mod_lt _ h10
      have hmodm : m % 10 ^ w < 10 ^ w := Nat.mod_lt _ h10
      have hchn := toNat_digitChar _ hdn
      have hchm := toNat_digitChar _ hdm
      have hlt : n < m ↔ n / 10 ^ w < m / 10 ^ w ∨
          (n / 10 ^ w = m / 10 ^ w ∧ n % 10 ^ w < m % 10 ^ w) := by
        have hb := block_lt_iff (P := 10 ^ w) (a := n / 10 ^ w) (b := n % 10 ^ w)
          (c := m / 10 ^ w) (d := m % 10 ^ w) hmodn hmodm
        rw [Nat.mul_comm (n / 10 ^ w), Nat.mul_comm (m / 10 ^ w),
          Nat.div_add_mod, Nat.div_add_mod] at hb
        exact hb
      have heq : n = m ↔ n / 10 ^ w = m / 10 ^ w ∧ n % 10 ^ w = m % 10 ^ w := by
        have hb := block_eq_iff (P := 10 ^ w) (a := n / 10 ^ w) (b := n % 10 ^ w)
          (c := m / 10 ^ w) (d := m % 10 ^ w) hmodn hmodm
        rw [Nat.mul_comm (n / 10 ^ w), Nat.mul_comm (m / 10 ^ w),
          Nat.div_add_mod, Nat.div_add_mod] at hb
        exact hb
      rw [padChars_succ, padChars_succ, List.cons_append, List.cons_append,
        lexLe_cons, hchn, hchm]
      by_cases hd1 : n / 10 ^ w < m / 10 ^ w
      · rw [if_pos (by omega)]
        constructor
        · intro h
          exact Or.inl (hlt.mpr (Or.inl hd1))
        · intro h
          rfl
      · by_cases hd2 : m / 10 ^ w < n / 10 ^ w
        · rw [if_neg (by omega), if_pos (by omega)]
          constructor
          · intro h
            exact absurd h (by simp)
          · intro h
            exfalso
            rcases h with h | ⟨h, -⟩
            · rcases hlt.mp h with h' | ⟨h', -⟩ <;> omega
            · rcases heq.mp h with ⟨h', -⟩
              omega
        · have hdeq : n / 10 ^ w = m / 10 ^ w := by omega
          rw [if_neg (by omega), if_neg (by omega), ih hmodn hmodm]
          constructor
          · rintro (h | ⟨h, hr⟩)
            · exact Or.inl (hlt.mpr (Or.inr ⟨hdeq, h⟩))
            · exact Or.inr ⟨heq.mpr ⟨hdeq, h⟩, hr⟩
          · rintro (h | ⟨h, hr⟩)
            · rcases hlt.mp h with h | ⟨-, h⟩
              · omega
              · exact Or.inl h
            · rcases heq.mp h with ⟨-, h⟩
              exact Or.inr ⟨h, hr⟩

lemma lexLe_cons_same (c : Char) (x y : List Char) :
    lexLe (c :: x) (c :: y) = lexLe x y := by
  rw [lexLe_cons]
  simp

lemma strLe_total (a b : String) : (strLe a b || strLe b a) = true := by
  rcases lexLe_total a.data b.data with h | h <;> simp [strLe, h]

lemma strLe_trans (a b c : String) (h1 : strLe a b = true) (h2 : strLe b c = true) :
    strLe a c = true := lexLe_trans h1 h2

lemma data_mk (l : List Char) : (String.mk l).data = l := rfl

lemma data_backupFileName (t : DateTime) :
    (backupFileName t).data = "backup-".data ++ (fmtChars t ++ ".gz".data) := by
  simp [backupFileName, backupName, fmtTimestamp, String.data_append, data_mk]

/-- Lexicographic comparison of two archive file names is exactly
chronological comparison of the underlying readings at one-second
granularity. -/
lemma strLe_backupFileName_iff {t1 t2 : DateTime}
    (h1 : ValidTime t1) (h2 : ValidTime t2) :
    strLe (backupFileName t1) (backupFileName t2) = true ↔
      encodeSec t1 ≤ encodeSec t2 := by
  obtain ⟨hy1, hmo1a, hmo1b, hd1a, hd1b, hh1, hmi1, hs1⟩ := h1
  obtain ⟨hy2, hmo2a, hmo2b, hd2a, hd2b, hh2, hmi2, hs2⟩ := h2
  have e4 : (10 : Nat) ^ 4 = 10000 := by norm_num
  have e2 : (10 : Nat) ^ 2 = 100 := by norm_num
  have hy1' : t1.year < 10 ^ 4 := by omega
  have hy2' : t2.year < 10 ^ 4 := by omega
  have hmo1' : t1.month < 10 ^ 2 := by omega
  have hmo2' : t2.month < 10 ^ 2 := by omega
  have hd1' : t1.day < 10 ^ 2 := by omega
  have hd2' : t2.day < 10 ^ 2 := by omega
  have hh1' : t1.hour < 10 ^ 2 := by omega
  have hh2' : t2.hour < 10 ^ 2 := by omega
  have hmi1' : t1.minute < 10 ^ 2 := by omega
  have hmi2' : t2.minute < 10 ^ 2 := by omega
  have hs1' : t1.second < 10 ^ 2 := by omega
  have hs2' : t2.second < 10 ^ 2 := by omega
  unfold strLe
  rw [data_backupFileName, data_backupFileName, lexLe_append_same]
  unfold fmtChars
  simp only [List.append_assoc, List.cons_append, List.nil_append]
  rw [lexLe_padChars_append _ _ hy1' hy2',
    lexLe_padChars_append _ _ hmo1' hmo2',
    lexLe_padChars_append _ _ hd1' hd2',
    lexLe_cons_same,
    lexLe_padChars_append _ _ hh1' hh2',
    lexLe_padChars_append _ _ hmi1' hmi2',
    lexLe_padChars_append _ _ hs1' hs2',
    lexLe_refl]
  unfold encodeSec
  simp only [eq_self_iff_true, and_true]
  omega

lemma endsGz_backupFileName (t : DateTime) : endsGz (backupFileName t) = true := by
  unfold endsGz
  rw [List.isSuffixOf_iff_suffix]
  exact ⟨(backupName t).data, (String.data_append (backupName t) ".gz").symm⟩

/-- In a pairwise-ordered list, every element is the last one or relates to
it. -/
lemma mem_eq_or_rel_getLast {α : Type} {R : α → α → Prop} :
    ∀ {l : List α} {x : α}, l.Pairwise R → l.getLast? = some x →
    ∀ y ∈ l, y = x ∨ R y x := by
  intro l
  induction l with
  | nil =>
      intro x hp hl
      cases hl
  | cons a rest ih =>
      intro x hp hl y hy
      cases rest with
      | nil =>
          have hax : a = x := by
            have : (some a : Option α) = some x := hl
            injection this
          rcases List.mem_singleton.mp hy with rfl
          exact Or.inl hax
      | cons b rest2 =>
          rw [List.getLast?_cons_cons] at hl
          rcases List.mem_cons.mp hy with hy | hy
          · subst hy
            have hx : x ∈ b :: rest2 := List.mem_of_mem_getLast? hl
            exact Or.inr ((List.pairwise_cons.mp hp).1 x hx)
          · exact ih (List.pairwise_cons.mp hp).2 hl y hy

/-- C6: when the external dump tool fails, `createBackup` inserts no record
and propagates the error; a `created` record is appended only when the dump
(and, in the docker variant, every following `execSync` step before the
insert) succeeded. -/
theorem createBackup_dump_failure_writes_nothing (dumpOk cpOk rmOk : Bool)
    (dir : String) (t : DateTime) (tRec : Nat) (s : Store) :
    (dumpOk = false →
      createBackup dumpOk dir t tRec s = (.error .externalToolError, s) ∧
      createBackupDocker dumpOk cpOk rmOk dir t tRec s = (.error .externalToolError, s)) ∧
    (∀ e s', createBackup dumpOk dir t tRec s = (e, s') → s' ≠ s →
      dumpOk = true ∧ e = .ok () ∧
      s' = s ++ [{ path := joinPath dir (backupName t) ++ ".gz", createdAt := tRec, type := .emergency, status := .created }]) ∧
    (∀ e s', createBackupDocker dumpOk cpOk rmOk dir t tRec s = (e, s') → s' ≠ s →
      dumpOk = true ∧ e = .ok ()) := by
  refine ⟨?_, ?_, ?_⟩
  · intro h
    subst h
    exact ⟨rfl, rfl⟩
  · intro e s' h hne
    cases dumpOk with
    | false =>
        rw [show createBackup false dir t tRec s = (.error .externalToolError, s)
          from rfl] at h
        injection h with h1 h2
        exact absurd h2.symm hne
    | true =>
        rw [show createBackup true dir t tRec s = (.ok (),
          s ++ [{ path := joinPath dir (backupName t) ++ ".gz", createdAt := tRec, type := .emergency, status := .created }])
          from rfl] at h
        injection h with h1 h2
        exact ⟨rfl, h1.symm, h2.symm⟩
  · intro e s' h hne
    cases dumpOk with
    | false =>
        rw [show createBackupDocker false cpOk rmOk dir t tRec s =
          (.error .externalToolError, s) from rfl] at h
        injection h with h1 h2
        exact absurd h2.symm hne
    | true =>
        cases cpOk with
        | false =>
            rw [show createBackupDocker true false rmOk dir t tRec s =
              (.error .externalToolError, s) from rfl] at h
            injection h with h1 h2
            exact absurd h2.symm hne
        | true =>
            cases rmOk with
            | false =>
                rw [show createBackupDocker true true false dir t tRec s =
                  (.error .externalToolError, s) from rfl] at h
                injection h with h1 h2
                exact absurd h2.symm hne
            | true =>
                rw [show createBackupDocker true true true dir t tRec s = (.ok (),
                  s ++ [{ path := joinPath dir (backupName t), createdAt := tRec, type := .emergency, status := .created }])
                  from rfl] at h
                injection h with h1 h2
                exact ⟨rfl, h1.symm⟩

/-- C6 witness: a failing dump at a concrete input leaves the store empty
and errors, in both variants. -/
theorem createBackup_dump_failure_writes_nothing_witness :
    createBackup false "/home/user/backups/tocgamedb" demoTime 100 [] =
      (.error .externalToolError, []) ∧
    createBackupDocker false true true "/home/user/backups/tocgamedb" demoTime 100 [] =
      (.error .externalToolError, []) :=
  (createBackup_dump_failure_writes_nothing false true true
    "/home/user/backups/tocgamedb" demoTime 100 []).1 rfl

/-- C9 counterexample: two distinct `createBackup` invocations in the same
second generate the same archive name, and the resulting store holds two
distinct records with the same `path`. -/
theorem backupName_collision_within_second :
    demoTime ≠ demoTimeLater ∧
    backupFileName demoTime = backupFileName demoTimeLater ∧
    dupStore[0]?.map BackupRecord.path = dupStore[1]?.map BackupRecord.path ∧
    dupStore[0]? ≠ dupStore[1]? := by
  refine ⟨by decide, rfl, rfl, by decide⟩

/-- C9 (amended): archive names — and hence record paths under a fixed
backup directory — are distinct exactly when the second-granularity
timestamps of the invocations are distinct; within one second the name
collides. -/
theorem backupFileName_inj_second_granularity (t1 t2 : DateTime)
    (h1 : ValidTime t1) (h2 : ValidTime t2) :
    (backupFileName t1 = backupFileName t2 ↔
      (t1.year = t2.year ∧ t1.month = t2.month ∧ t1.day = t2.day ∧
        t1.hour = t2.hour ∧ t1.minute = t2.minute ∧ t1.second = t2.second)) ∧
    ∀ dir, joinPath dir (backupName t1) = joinPath dir (backupName t2) ↔
      backupName t1 = backupName t2 := by
  constructor
  · constructor
    · intro heq
      have hle1 : strLe (backupFileName t1) (backupFileName t2) = true := by
        rw [heq]; exact lexLe_refl _
      have hle2 : strLe (backupFileName t2) (backupFileName t1) = true := by
        rw [heq]; exact lexLe_refl _
      have henc1 := (strLe_backupFileName_iff h1 h2).mp hle1
      have henc2 := (strLe_backupFileName_iff h2 h1).mp hle2
      obtain ⟨hy1, hmo1a, hmo1b, hd1a, hd1b, hh1, hmi1, hs1⟩ := h1
      obtain ⟨hy2, hmo2a, hmo2b, hd2a, hd2b, hh2, hmi2, hs2⟩ := h2
      unfold encodeSec at henc1 henc2
      refine ⟨?_, ?_, ?_, ?_, ?_, ?_⟩ <;> omega
    · rintro ⟨hy, hmo, hd, hh, hmi, hs⟩
      unfold backupFileName backupName fmtTimestamp fmtChars
      rw [hy, hmo, hd, hh, hmi, hs]
  · intro dir
    constructor
    · intro h
      unfold joinPath at h
      have h1 := congrArg String.data h
      simp only [String.data_append, List.append_assoc] at h1
      exact String.ext (List.append_cancel_left (List.append_cancel_left h1))
    · intro h
      rw [h]

/-- C9 witness: the amended uniqueness at two concrete valid readings one
second apart. -/
theorem backupFileName_inj_second_granularity_witness :
    backupFileName demoTime = backupFileName demoTimeNextSec ↔
      (demoTime.year = demoTimeNextSec.year ∧ demoTime.month = demoTimeNextSec.month ∧
        demoTime.day = demoTimeNextSec.day ∧ demoTime.hour = demoTimeNextSec.hour ∧
        demoTime.minute = demoTimeNextSec.minute ∧ demoTime.second = demoTimeNextSec.second) :=
  (backupFileName_inj_second_granularity demoTime demoTimeNextSec
    (by decide) (by decide)).1

/-- C10: archive names embed the creation time as `yyyyMMdd-HHmmss`, so
lexicographic order of the file names coincides with chronological order at
one-second granularity; consequently the filesystem fallback — sorting the
directory's `.gz` entries lexically and taking the greatest — selects the
most recently created archive. -/
theorem lexical_name_order_matches_chronology :
    (∀ t1 t2 : DateTime, ValidTime t1 → ValidTime t2 →
      (strLe (backupFileName t1) (backupFileName t2) = true ↔
        encodeSec t1 ≤ encodeSec t2)) ∧
    (∀ ts : List DateTime, (∀ t ∈ ts, ValidTime t) → ts ≠ [] →
      ∃ t ∈ ts, selectLatestGz (ts.map backupFileName) = some (backupFileName t) ∧
        ∀ u ∈ ts, encodeSec u ≤ encodeSec t) := by
  constructor
  · intro t1 t2 h1 h2
    exact strLe_backupFileName_iff h1 h2
  · intro ts hvalid hne
    have hfilter : (ts.map backupFileName).filter endsGz = ts.map backupFileName := by
      rw [List.filter_eq_self]
      intro a ha
      obtain ⟨t, ht, rfl⟩ := List.mem_map.mp ha
      exact endsGz_backupFileName t
    have hperm : ((ts.map backupFileName).mergeSort strLe).Perm (ts.map backupFileName) :=
      List.mergeSort_perm _ strLe
    have hpair : ((ts.map backupFileName).mergeSort strLe).Pairwise
        (fun a b => strLe a b = true) :=
      List.sorted_mergeSort strLe_trans strLe_total _
    have hsne : (ts.map backupFileName).mergeSort strLe ≠ [] := by
      intro h0
      have hlen := hperm.length_eq
      rw [h0] at hlen
      simp only [List.length_nil, List.length_map] at hlen
      exact hne (List.eq_nil_of_length_eq_zero hlen.symm)
    cases hgl : ((ts.map backupFileName).mergeSort strLe).getLast? with
    | none => exact absurd (List.getLast?_eq_none_iff.mp hgl) hsne
    | some x =>
        have hsel : selectLatestGz (ts.map backupFileName) = some x := by
          unfold selectLatestGz
          rw [hfilter, List.head?_reverse]
          exact hgl
        have hxmem : x ∈ (ts.map backupFileName).mergeSort strLe :=
          List.mem_of_mem_getLast? hgl
        have hxfiles : x ∈ ts.map backupFileName := hperm.mem_iff.mp hxmem
        obtain ⟨t, ht, hxt⟩ := List.mem_map.mp hxfiles
        refine ⟨t, ht, by rw [hxt]; exact hsel, ?_⟩
        intro u hu
        have humem : backupFileName u ∈ (ts.map backupFileName).mergeSort strLe :=
          hperm.mem_iff.mpr (List.mem_map.mpr ⟨u, hu, rfl⟩)
        have hstr : strLe (backupFileName u) (backupFileName t) = true := by
          rcases mem_eq_or_rel_getLast hpair hgl _ humem with heq | hrel
          · rw [heq, ← hxt]
            exact lexLe_refl _
          · rw [← hxt] at hrel
            exact hrel
        exact (strLe_backupFileName_iff (hvalid u hu) (hvalid t ht)).mp hstr

/-- C10 witness: the fallback selection over two concrete archives picks
the one created a second later. -/
theorem lexical_name_order_matches_chronology_witness :
    selectLatestGz ([demoTimeNextSec, demoTime].map backupFileName) =
      some (backupFileName demoTimeNextSec) ∧
    encodeSec demoTime ≤ encodeSec demoTimeNextSec := by
  obtain ⟨t, ht, hsel, hmax⟩ := lexical_name_order_matches_chronology.2
    [demoTimeNextSec, demoTime] (by decide) (by decide)
  rcases List.mem_cons.mp ht with h | h
  · subst h
    exact ⟨hsel, hmax demoTime (by decide)⟩
  · have h' : t = demoTime := by simpa using h
    subst h'
    exact absurd (hmax demoTimeNextSec (by decide)) (by decide)

/-- C7 counterexample: dismissing the zenity dialog — and likewise a
timeout or a failure of the channel itself — yields `hasProblem = false`,
not `true` as claimed. -/
theorem showDialog_dismiss_yields_false :
    showDialog .dismissed = false ∧ showDialog .timeout = false ∧
    showDialog .channelError = false := by decide

/-- C7 (amended): the zenity gate returns `hasProblem = true` exactly on an
explicit "has problem" answer; "no problem", dismissal, timeout and channel
failure all yield `false` (the zenity variants default toward the backup
path when the channel fails); only the Electron variant's gate resolves an
unexpected channel error to `true`. -/
theorem showDialog_outcomes (o : DialogOutcome) :
    (showDialog o = true ↔ o = .yesProblem) ∧ showDialogElectronOnError = true := by
  constructor
  · cases o <;> simp [showDialog, zenityExitCode]
  · rfl

/-- C8 counterexample: the docker variant creates the missing directory
with mode `0o755`, which is not owner-only. -/
theorem ensureBackupDirDocker_not_owner_only :
    ensureBackupDirDocker { dirExists := false, mode := 0 } =
      { dirExists := true, mode := 0o755 } ∧
    ownerOnly 0o755 = false := by decide

/-- C8 (amended): a missing backup root is created before first use — with
owner-only mode `0o700` by the archive variants, but with mode `0o755`
(group/other readable) by the docker variant — and an already-existing
directory is left untouched by every variant, so its permissions are never
widened. -/
theorem ensureBackupDir_modes (fs : DirState) :
    (fs.dirExists = true → ensureBackupDir fs = fs ∧ ensureBackupDirDocker fs = fs) ∧
    (fs.dirExists = false →
      ensureBackupDir fs = { dirExists := true, mode := 0o700 } ∧
      ownerOnly (ensureBackupDir fs).mode = true ∧
      ensureBackupDirDocker fs = { dirExists := true, mode := 0o755 }) := by
  constructor
  · intro h
    constructor <;> simp [ensureBackupDir, ensureBackupDirDocker, h]
  · intro h
    refine ⟨?_, ?_, ?_⟩ <;> simp [ensureBackupDir, ensureBackupDirDocker, ownerOnly, h]

/-- C8 witness: creation of a missing directory and no-op on an existing
one, at concrete states. -/
theorem ensureBackupDir_modes_witness :
    ensureBackupDir { dirExists := false, mode := 0 } = { dirExists := true, mode := 0o700 } ∧
    ensureBackupDirDocker { dirExists := true, mode := 0o700 } = { dirExists := true, mode := 0o700 } :=
  ⟨((ensureBackupDir_modes { dirExists := false, mode := 0 }).2 rfl).1,
    ((ensureBackupDir_modes { dirExists := true, mode := 0o700 }).1 rfl).2⟩

lemma inv_init : Inv initState := by
  refine ⟨fun _ => rfl, fun h => absurd rfl h, rfl⟩

lemma inv_step (s : OrchState) (e : OrchEvent) (h : Inv s) : Inv (step s e) := by
  obtain ⟨h1, h2, h3⟩ := h
  cases e with
  | trigger =>
      by_cases hg : s.alertTriggered
      · simp only [step, if_pos hg]
        refine ⟨h1, h2, ?_⟩
        show s.triggers + 1 = s.cycleStarts + (s.drops + 1)
        omega
      · simp only [step, if_neg hg]
        have hidle : s.phase = .idle := by
          by_contra hne
          exact hg (h2 hne).2
        have h0 : s.inFlight = 0 := h1 hidle
        refine ⟨?_, ?_, ?_⟩
        · intro hp
          exact Phase.noConfusion hp
        · intro hp
          refine ⟨?_, rfl⟩
          show s.inFlight + 1 = 1
          omega
        · show s.triggers + 1 = s.cycleStarts + 1 + s.drops
          omega
  | confirmDone b =>
      by_cases hp : s.phase = Phase.confirming
      · simp only [step, if_pos hp]
        refine ⟨?_, ?_, h3⟩
        · intro hc
          exact Phase.noConfusion hc
        · intro hc
          exact h2 (by rw [hp]; decide)
      · simp only [step, if_neg hp]
        exact ⟨h1, h2, h3⟩
  | engineOk =>
      by_cases hp : s.phase = Phase.acting
      · simp only [step, if_pos hp]
        have hone := (h2 (by rw [hp]; decide)).1
        refine ⟨?_, ?_, h3⟩
        · intro hc
          show s.inFlight - 1 = 0
          omega
        · intro hc
          exact absurd rfl hc
      · simp only [step, if_neg hp]
        exact ⟨h1, h2, h3⟩
  | engineThrow =>
      by_cases hp : s.phase = Phase.acting
      · simp only [step, if_pos hp]
        have hone := (h2 (by rw [hp]; decide)).1
        refine ⟨?_, ?_, h3⟩
        · intro hc
          show s.inFlight - 1 = 0
          omega
        · intro hc
          exact absurd rfl hc
      · simp only [step, if_neg hp]
        exact ⟨h1, h2, h3⟩

lemma inv_run (evs : List OrchEvent) : Inv (run evs) := by
  suffices h : ∀ s, Inv s → Inv (evs.foldl step s) from h initState inv_init
  induction evs with
  | nil => exact fun s hs => hs
  | cons e rest ih => exact fun s hs => ih (step s e) (inv_step s e hs)

/-- C2: over every sequence of triggers, dialog resolutions and engine
completions, at most one backup/restore cycle is in flight, and every
trigger is accounted for as either a started cycle or a dropped trigger —
none are queued. -/
theorem single_flight_guard (evs : List OrchEvent) :
    (run evs).inFlight ≤ 1 ∧
    (run evs).triggers = (run evs).cycleStarts + (run evs).drops := by
  obtain ⟨h1, h2, h3⟩ := inv_run evs
  refine ⟨?_, h3⟩
  by_cases hp : (run evs).phase = .idle
  · rw [h1 hp]
    omega
  · have := (h2 hp).1
    omega

/-- C3 evaluation at the failing input: after `trigger`, `confirmDone true`
(restore path) and `engineThrow` (for instance `NoBackupAvailable` thrown
by `restoreFromLatestBackup`), the handler has exited (phase `idle`) but
`alertTriggered` is still `true`, and a subsequent trigger is dropped
instead of starting a cycle — the guard is permanently held, contradicting
the claimed unconditional release. -/
theorem guard_stuck_after_engine_throw :
    (run [.trigger, .confirmDone true, .engineThrow]).phase = .idle ∧
    (run [.trigger, .confirmDone true, .engineThrow]).alertTriggered = true ∧
    (run [.trigger, .confirmDone true, .engineThrow, .trigger]).drops = 1 ∧
    (run [.trigger, .confirmDone true, .engineThrow, .trigger]).cycleStarts = 1 := by
  decide

end CFD

